import Mathlib

/-!
Shallow embedding of the svelte-sdk Dojo store
(packages/svelte-sdk/src/state/svelte.ts): entity cache, immer-style
patch mechanism, optimistic transaction ledger, and the predicate wait
primitive.

JavaScript objects are modelled as insertion-ordered association lists
with string keys; the immer produceWithPatches and applyPatches pair is
modelled by a structural diff over the known shape of the store state
(a record of two records), as the specification directs for
reimplementation of the patch library.
-/

/-- JSON-like values: the object/scalar fragment used by the cache.
Objects are insertion-ordered association lists with string keys,
mirroring JavaScript objects. -/
inductive JValue where
  | jnull : JValue
  | jbool : Bool → JValue
  | jnum : Int → JValue
  | jstr : String → JValue
  | jobj : List (String × JValue) → JValue

mutual
/-- Structural equality test on JValue (JavaScript-level strict deep
equality of the tree, key order included). -/
def beqJ : JValue → JValue → Bool
  | .jnull, .jnull => true
  | .jbool a, .jbool b => a == b
  | .jnum a, .jnum b => a == b
  | .jstr a, .jstr b => a == b
  | .jobj fs, .jobj gs => beqL fs gs
  | _, _ => false

def beqL : List (String × JValue) → List (String × JValue) → Bool
  | [], [] => true
  | (k, v) :: fs, (k2, w) :: gs => k == k2 && beqJ v w && beqL fs gs
  | _, _ => false
end

/-- Lookup of a key in a JavaScript-object association list. -/
def assocGet : List (String × α) → String → Option α
  | [], _ => none
  | (k, v) :: fs, key => if k = key then some v else assocGet fs key

/-- Assignment of a key in a JavaScript-object association list:
in-place overwrite of the first occurrence when the key is present,
append otherwise (JavaScript property-assignment order semantics). -/
def assocSet : List (String × α) → String → α → List (String × α)
  | [], key, v => [(key, v)]
  | (k, w) :: fs, key, v =>
      if k = key then (key, v) :: fs else (k, w) :: assocSet fs key v

/-- Key deletion in a JavaScript-object association list. -/
def assocRemove : List (String × α) → String → List (String × α)
  | [], _ => []
  | (k, w) :: fs, key =>
      if k = key then assocRemove fs key else (k, w) :: assocRemove fs key

/-- Distinctness of the keys of an association list. -/
def nodupKeys : List (String × α) → Bool
  | [] => true
  | (k, _) :: fs => !(assocGet fs k).isSome && nodupKeys fs

mutual
/-- Well-formedness of a JValue: every object in the tree has distinct
keys, as JavaScript objects do by construction. -/
def wfJ : JValue → Bool
  | .jobj fs => nodupKeys fs && wfL fs
  | _ => true

def wfL : List (String × JValue) → Bool
  | [] => true
  | (_, v) :: fs => wfJ v && wfL fs
end

/-- Keys of the first list are all present in the second. -/
def keysSub (gs fs : List (String × JValue)) : Bool :=
  gs.all (fun p => (assocGet fs p.1).isSome)

mutual
/-- Extensional equality of JValues: objects are compared as finite
maps (key order ignored), scalars strictly. This is the structural
equality notion of JavaScript deep-equal on the cache state. -/
def jeq : JValue → JValue → Bool
  | .jobj fs, .jobj gs => jeqL fs gs && keysSub gs fs
  | a, b => beqJ a b

def jeqL : List (String × JValue) → List (String × JValue) → Bool
  | [], _ => true
  | (k, v) :: fs, gs =>
      (match assocGet gs k with
       | some w => jeq v w
       | none => false) && jeqL fs gs
end

/-- Pointwise comparison of optional values by jeq. -/
def optJeq : Option JValue → Option JValue → Bool
  | some a, some b => jeq a b
  | none, none => true
  | _, _ => false

/-- Patch operation kinds, as in immer patches. -/
inductive POp where
  | add : POp
  | replace : POp
  | remove : POp
  deriving DecidableEq

/-- A patch over a JValue tree: operation, path of object keys, and
payload value. The value field is unused for remove operations and is
set to jnull there by convention. -/
structure JPatch where
  op : POp
  path : List String
  value : JValue

/-- Application of one patch operation at a path, immer applyPatches
semantics restricted to object navigation: add and replace assign the
final key, remove deletes it; a path that does not navigate through
existing object nodes leaves the value unchanged. -/
def applyAt (op : POp) (v : JValue) : JValue → List String → JValue
  | s, [] =>
      (match op with
       | .remove => s
       | _ => v)
  | .jobj fs, [k] =>
      .jobj (match op with
       | .remove => assocRemove fs k
       | _ => assocSet fs k v)
  | .jobj fs, k :: k2 :: rest =>
      .jobj (match assocGet fs k with
       | some c => assocSet fs k (applyAt op v c (k2 :: rest))
       | none => fs)
  | s, _ :: _ => s

def applyJP (s : JValue) (p : JPatch) : JValue :=
  applyAt p.op p.value s p.path

def applyJPs (s : JValue) (ps : List JPatch) : JValue :=
  ps.foldl applyJP s

def prefixPatch (k : String) (p : JPatch) : JPatch :=
  ⟨p.op, k :: p.path, p.value⟩

/-- Keys present in the first record but absent from the second. -/
def removedKeys (fs : List (String × α)) (gs : List (String × β)) :
    List String :=
  (fs.filter (fun p => !(assocGet gs p.1).isSome)).map Prod.fst

mutual
/-- Structural diff between two JValues, producing an edit script that
transforms the first into the second: the reversible-patch mechanism
the store obtains from produceWithPatches, reimplemented as the
specification directs as a structural diff over the state shape.
Objects are diffed key by key; everything else is replaced wholesale
when different. -/
def jdiff (a b : JValue) : List JPatch :=
  if beqJ a b then []
  else
    match a, b with
    | .jobj fs, .jobj gs =>
        (removedKeys fs gs).map (fun k => ⟨.remove, [k], .jnull⟩) ++
          jdiffL fs gs
    | _, _ => [⟨.replace, [], b⟩]
termination_by sizeOf b
decreasing_by
  simp only [JValue.jobj.sizeOf_spec]; omega

def jdiffL (fs : List (String × JValue)) :
    List (String × JValue) → List JPatch
  | [] => []
  | (k, bv) :: gs =>
      (match assocGet fs k with
       | none => [⟨.add, [k], bv⟩]
       | some av => (jdiff av bv).map (prefixPatch k)) ++
        jdiffL fs gs
termination_by gs => sizeOf gs
decreasing_by
  · simp only [Prod.mk.sizeOf_spec, List.cons.sizeOf_spec]; omega
  · simp only [List.cons.sizeOf_spec]; omega
end

mutual
/-- An immer patch over the store state. A patch whose path starts at
the entities record is represented by the ent constructor with the
path relative to that record; an operation on an entry of the
pendingTransactions record is represented by the ptx constructor.
The value is ignored for remove operations. -/
inductive Patch where
  | ent : POp → List String → JValue → Patch
  | ptx : POp → String → Option PendingTransaction → Patch

/-- A pending transaction ledger record: transaction id, forward
patches and inverse patches. -/
inductive PendingTransaction where
  | mk : String → List Patch → List Patch → PendingTransaction
end

def PendingTransaction.transactionId : PendingTransaction → String
  | .mk t _ _ => t

def PendingTransaction.patches : PendingTransaction → List Patch
  | .mk _ p _ => p

def PendingTransaction.inversePatches : PendingTransaction → List Patch
  | .mk _ _ i => i

/-- The store state: entity id to parsed entity value, and transaction
id to pending transaction record. -/
structure GameState where
  entities : List (String × JValue)
  pendingTransactions : List (String × PendingTransaction)

/-- The initial state of the store. -/
def initialState : GameState := ⟨[], []⟩

/-- Entities-record part of a state diff, paths relative to the
entities record. -/
def entPatches (fs gs : List (String × JValue)) : List Patch :=
  (jdiff (.jobj fs) (.jobj gs)).map (fun p => .ent p.op p.path p.value)

/-- Removals of ledger entries present in the first ledger but absent
from the second. -/
def ptxRemoves (ps qs : List (String × PendingTransaction)) : List Patch :=
  (removedKeys ps qs).map (fun k => .ptx .remove k none)

/-- Assignments of every ledger entry of the target ledger. Ledger
records are treated as atomic values by the diff: assigning an entry
that is already equal is an identity operation, so the script still
transforms the source ledger into the target one. -/
def ptxAdds (qs : List (String × PendingTransaction)) : List Patch :=
  qs.map (fun p => .ptx .add p.1 (some p.2))

/-- Structural diff between two store states, the produceWithPatches
edit script: entities are diffed recursively, ledger entries
atomically. -/
def diffState (a b : GameState) : List Patch :=
  entPatches a.entities b.entities ++
    (ptxRemoves a.pendingTransactions b.pendingTransactions ++
      ptxAdds b.pendingTransactions)

/-- Application of an entities-record patch. The fallback branch is
unreachable for scripts produced by diffState, whose entity paths are
never empty. -/
def applyEnt (fs : List (String × JValue)) (op : POp) (path : List String)
    (v : JValue) : List (String × JValue) :=
  match applyAt op v (.jobj fs) path with
  | .jobj fs2 => fs2
  | _ => fs

/-- Application of one state-level patch, immer applyPatches semantics
over the store state shape. -/
def applyPatchState (s : GameState) : Patch → GameState
  | .ent op path v => { s with entities := applyEnt s.entities op path v }
  | .ptx .remove k _ =>
      { s with pendingTransactions := assocRemove s.pendingTransactions k }
  | .ptx _ k (some t) =>
      { s with pendingTransactions := assocSet s.pendingTransactions k t }
  | .ptx _ _ none => s

/-- Application of a state-level patch script, immer applyPatches. -/
def applyPatchesState (s : GameState) (ps : List Patch) : GameState :=
  ps.foldl applyPatchState s

/-- A parsed entity as delivered to setEntities: its id and its
two-level models record, namespace name to model name to fields. -/
structure ParsedEntity where
  entityId : String
  models : List (String × JValue)

/-- The JValue stored in the cache for a parsed entity. -/
def ParsedEntity.toJ (e : ParsedEntity) : JValue :=
  .jobj [("entityId", .jstr e.entityId), ("models", .jobj e.models)]

/-- Sets multiple entities in the store: each incoming entity replaces
the slot at its entity id wholesale. -/
def setEntities (entities : List ParsedEntity) (s : GameState) : GameState :=
  { s with entities :=
      (entities.foldl (fun acc e => assocSet acc e.entityId e.toJ)
        s.entities) }

/-- A partial entity as delivered to updateEntity. The empty string
entityId models a missing id field: both are falsy in the JavaScript
guard of updateEntity. A missing models field is none. -/
structure PartialEntity where
  entityId : String
  models : Option (List (String × JValue))

/-- Field lookup on an object value. -/
def getField : JValue → String → Option JValue
  | .jobj fs, k => assocGet fs k
  | _, _ => none

/-- View of an optional value as an object field list: Object.assign
treats a missing or non-object source as contributing no fields. -/
def asObj : Option JValue → List (String × JValue)
  | some (.jobj fs) => fs
  | _ => []

/-- Object.assign of two field lists into a fresh object: fields of the
first, overwritten by fields of the second. -/
def mergeObj (a b : List (String × JValue)) : List (String × JValue) :=
  b.foldl (fun acc p => assocSet acc p.1 p.2) a

/-- The namespace-level merge loop of updateEntity: each namespace of
the update overwrites same-named models of that namespace wholesale,
namespaces not mentioned are untouched. -/
def mergeModels (existing : List (String × JValue))
    (ums : List (String × JValue)) : List (String × JValue) :=
  ums.foldl
    (fun acc p =>
      assocSet acc p.1
        (.jobj (mergeObj (asObj (assocGet acc p.1)) (asObj (some p.2)))))
    existing

/-- Field assignment on an object value. -/
def setField : JValue → String → JValue → JValue
  | .jobj fs, k, v => .jobj (assocSet fs k v)
  | j, _, _ => j

/-- Updates a specific entity in the store: merges the partial entity
into the existing one when the id is truthy, present in the cache, and
models are given; otherwise leaves the state unchanged. -/
def updateEntity (u : PartialEntity) (s : GameState) : GameState :=
  if u.entityId = "" then s
  else
    match assocGet s.entities u.entityId, u.models with
    | some existing, some ums =>
        let merged := mergeModels (asObj (getField existing "models")) ums
        let newE :=
          setField (setField existing "entityId" (.jstr u.entityId))
            "models" (.jobj merged)
        { s with entities := assocSet s.entities u.entityId newE }
    | _, _ => s

/-- Applies an optimistic update: runs the edit function on the current
state, computes forward and inverse patch scripts, installs the new
state, then records the pending transaction in the ledger. -/
def applyOptimisticUpdate (transactionId : String)
    (updateFn : GameState → GameState) (s : GameState) : GameState :=
  let nextState := updateFn s
  let patches := diffState s nextState
  let inversePatches := diffState nextState s
  { nextState with pendingTransactions :=
      (assocSet nextState.pendingTransactions transactionId
        (.mk transactionId patches inversePatches)) }

/-- The snapshots delivered to subscribers during applyOptimisticUpdate:
one from the set call installing the edited state, one from the update
call recording the ledger entry. -/
def applyOptimisticEmits (transactionId : String)
    (updateFn : GameState → GameState) (s : GameState) : List GameState :=
  [updateFn s, applyOptimisticUpdate transactionId updateFn s]

/-- Reverts an optimistic update: if the ledger has a record for the
transaction id, applies its inverse patches to the current state and
deletes the ledger entry; otherwise does nothing. -/
def revertOptimisticUpdate (transactionId : String) (s : GameState) :
    GameState :=
  match assocGet s.pendingTransactions transactionId with
  | none => s
  | some transaction =>
      let newState := applyPatchesState s transaction.inversePatches
      { newState with pendingTransactions :=
          (assocRemove newState.pendingTransactions transactionId) }

/-- Confirms a transaction: deletes the ledger entry, entities
untouched. -/
def confirmTransaction (transactionId : String) (s : GameState) :
    GameState :=
  { s with pendingTransactions :=
      (assocRemove s.pendingTransactions transactionId) }

/-- Retrieves a specific entity from the store. -/
def getEntity (entityId : String) (s : GameState) : Option JValue :=
  assocGet s.entities entityId

/-- Retrieves all entities, optionally filtered by a predicate. -/
def getEntities (filter : Option (JValue → Bool)) (s : GameState) :
    List JValue :=
  let allEntities := s.entities.map Prod.snd
  match filter with
  | some f => allEntities.filter f
  | none => allEntities

/-- Well-formedness of the entities record: distinct entity ids and
well-formed entity values. -/
def wfEnts (fs : List (String × JValue)) : Bool :=
  nodupKeys fs && wfL fs

/-- Well-formedness of a store state: both records have distinct keys
and entity values are well-formed, as JavaScript objects are by
construction. -/
def wfState (s : GameState) : Bool :=
  wfEnts s.entities && nodupKeys s.pendingTransactions

/-- Structural equality of two store states, JavaScript deep equality:
entity slots agree pointwise up to object key order, ledger entries
agree exactly. -/
def stateEquiv (s t : GameState) : Prop :=
  (∀ k, optJeq (assocGet s.entities k) (assocGet t.entities k) = true) ∧
  (∀ k, assocGet s.pendingTransactions k =
    assocGet t.pendingTransactions k)

/-- Navigation through nested object fields. -/
def navGet : JValue → List String → Option JValue
  | s, [] => some s
  | .jobj fs, k :: rest =>
      (match assocGet fs k with
       | some c => navGet c rest
       | none => none)
  | _, _ :: _ => none

/-- All the parents of the final path segment exist as objects, so a
JavaScript assignment at the path runs without error. -/
def reaches : JValue → List String → Bool
  | _, [] => true
  | .jobj _, [_] => true
  | .jobj fs, k :: k2 :: rest =>
      (match assocGet fs k with
       | some c => reaches c (k2 :: rest)
       | none => false)
  | _, _ :: _ => false

/-- The edit function of the optimistic-visibility scenario: the draft
mutation that assigns value v to field fld of model mdl in namespace ns
of the entity at id. -/
def setFieldEdit (id ns mdl fld : String) (v : JValue) (s : GameState) :
    GameState :=
  { s with entities :=
      (applyEnt s.entities .replace [id, "models", ns, mdl, fld] v) }

/-- An event observed by the wait primitive: a store notification with
the new state, or the firing of its timer. -/
inductive WaitEvent where
  | notify : GameState → WaitEvent
  | timerFires : WaitEvent

/-- Outcome of waitForEntityChange. The rejectedError outcome models
the listener throwing inside the promise executor: the svelte store
invokes a new subscriber synchronously with the current state, before
the timer and unsubscribe bindings of waitForEntityChange are
initialized, so a predicate that is already satisfied at registration
makes the listener hit those uninitialized bindings and the promise
rejects with that error instead of resolving. -/
inductive WaitOutcome where
  | pending : WaitOutcome
  | resolved : Option JValue → WaitOutcome
  | rejectedTimeout : Nat → WaitOutcome
  | rejectedError : WaitOutcome

/-- One listener or timer step of waitForEntityChange: while pending, a
notification whose state satisfies the predicate resolves with that
entity value, and the timer firing rejects with the timeout error
carrying the configured duration; after a terminal outcome the listener
is deregistered and the timer cleared, so further events are ignored. -/
def waitStep (entityId : String) (predicate : Option JValue → Bool)
    (timeout : Nat) (st : WaitOutcome) (ev : WaitEvent) : WaitOutcome :=
  match st with
  | .pending =>
      (match ev with
       | .notify s =>
           if predicate (assocGet s.entities entityId) then
             .resolved (assocGet s.entities entityId)
           else .pending
       | .timerFires => .rejectedTimeout timeout)
  | done => done

/-- The waitForEntityChange lifecycle on a sequence of events after
registration, starting from the initial synchronous notification with
the registration-time state. -/
def waitForEntityChangeRun (entityId : String)
    (predicate : Option JValue → Bool) (timeout : Nat) (s0 : GameState)
    (events : List WaitEvent) : WaitOutcome :=
  if predicate (assocGet s0.entities entityId) then .rejectedError
  else events.foldl (waitStep entityId predicate timeout) .pending

/-- A sample entity as stored by the cache. -/
def sampleEntity : JValue :=
  .jobj [("entityId", .jstr "e1"),
    ("models", .jobj [("dojo", .jobj [("Moves",
      .jobj [("remaining", .jnum 0)])])])]

/-- A sample store state with one entity and an empty ledger. -/
def sampleState : GameState := ⟨[("e1", sampleEntity)], []⟩

/-- A sample optimistic edit setting the remaining field to 100. -/
def bumpEdit : GameState → GameState :=
  setFieldEdit "e1" "dojo" "Moves" "remaining" (.jnum 100)

/-- A sample wait predicate: the remaining field of the entity equals
100. -/
def samplePred (e : Option JValue) : Bool :=
  match e with
  | some v =>
      (match navGet v ["models", "dojo", "Moves", "remaining"] with
       | some (.jnum n) => n == 100
       | _ => false)
  | none => false

/-- A sample wait predicate that holds of any present entity. -/
def samplePresent (e : Option JValue) : Bool := e.isSome

/-- A sample ledger record. -/
def sampleTx : PendingTransaction := .mk "t1" [] []

/-- A sample store state whose ledger holds one pending transaction. -/
def sampleStateTx : GameState :=
  ⟨[("e1", sampleEntity)], [("t1", sampleTx)]⟩

/-- A second sample entity with two namespaces of models. -/
def sampleEntity2 : JValue :=
  .jobj [("entityId", .jstr "e1"),
    ("models", .jobj
      [("A", .jobj [("M1", .jobj [("x", .jnum 1)])]),
       ("B", .jobj [("M2", .jobj [("y", .jnum 2)])])])]

/-- A sample store state holding the two-namespace entity. -/
def sampleState2 : GameState := ⟨[("e1", sampleEntity2)], []⟩

/-- A sample partial update touching only namespace A. -/
def sampleUpdate : PartialEntity :=
  ⟨"e1", some [("A", .jobj [("M1", .jobj [("x", .jnum 9)])])]⟩

/-- A sample entity delivered to setEntities. -/
def sampleParsed : ParsedEntity := ⟨"e2", [("dojo", .jobj [])]⟩

mutual
theorem beqJ_iff : ∀ a b, beqJ a b = true ↔ a = b
  | .jnull, b => by cases b <;> simp [beqJ]
  | .jbool x, b => by cases b <;> simp [beqJ]
  | .jnum x, b => by cases b <;> simp [beqJ]
  | .jstr x, b => by cases b <;> simp [beqJ]
  | .jobj fs, b => by
      cases b <;> simp [beqJ]
      exact beqL_iff fs _

theorem beqL_iff : ∀ fs gs, beqL fs gs = true ↔ fs = gs
  | [], [] => by simp [beqL]
  | [], (k, v) :: gs => by simp [beqL]
  | (k, v) :: fs, [] => by simp [beqL]
  | (k, v) :: fs, (k2, w) :: gs => by
      simp [beqL, beqJ_iff v w, beqL_iff fs gs, Bool.and_assoc, and_assoc]
end

theorem assocGet_set_self (fs : List (String × α)) (key : String) (v : α) :
    assocGet (assocSet fs key v) key = some v := by
  induction fs with
  | nil => simp [assocSet, assocGet]
  | cons p fs ih =>
      obtain ⟨k, w⟩ := p
      by_cases hk : k = key
      · simp [assocSet, hk, assocGet]
      · simp [assocSet, hk, assocGet, ih]

theorem assocGet_set_other (fs : List (String × α)) (key k2 : String)
    (v : α) (hne : k2 ≠ key) :
    assocGet (assocSet fs key v) k2 = assocGet fs k2 := by
  induction fs with
  | nil => simp [assocSet, assocGet, Ne.symm hne]
  | cons p fs ih =>
      obtain ⟨k, w⟩ := p
      by_cases hk : k = key
      · simp [assocSet, hk, assocGet, Ne.symm hne]
      · simp [assocSet, hk, assocGet, ih]

theorem assocGet_remove_self (fs : List (String × α)) (key : String) :
    assocGet (assocRemove fs key) key = none := by
  induction fs with
  | nil => simp [assocRemove, assocGet]
  | cons p fs ih =>
      obtain ⟨k, w⟩ := p
      by_cases hk : k = key
      · simpa [assocRemove, hk] using ih
      · simpa [assocRemove, assocGet, hk] using ih

theorem assocGet_remove_other (fs : List (String × α)) (key k2 : String)
    (hne : k2 ≠ key) :
    assocGet (assocRemove fs key) k2 = assocGet fs k2 := by
  induction fs with
  | nil => simp [assocRemove, assocGet]
  | cons p fs ih =>
      obtain ⟨k, w⟩ := p
      by_cases hk : k = key
      · subst hk
        simp [assocRemove, assocGet, Ne.symm hne, ih]
      · simp [assocRemove, assocGet, hk, ih]

theorem assocRemove_of_not_mem (fs : List (String × α)) (key : String)
    (h : assocGet fs key = none) : assocRemove fs key = fs := by
  induction fs with
  | nil => rfl
  | cons p fs ih =>
      obtain ⟨k, w⟩ := p
      by_cases hk : k = key
      · simp [assocGet, hk] at h
      · simp [assocGet, hk] at h
        simp [assocRemove, hk, ih h]

theorem assocGet_mem (fs : List (String × α)) (key : String) (v : α)
    (h : assocGet fs key = some v) : (key, v) ∈ fs := by
  induction fs with
  | nil => simp [assocGet] at h
  | cons p fs ih =>
      obtain ⟨k, w⟩ := p
      by_cases hk : k = key
      · subst hk
        simp [assocGet] at h
        simp [h]
      · simp [assocGet, hk] at h
        simp [ih h]

theorem assocGet_isSome_of_mem (fs : List (String × α)) (key : String)
    (v : α) (h : (key, v) ∈ fs) : (assocGet fs key).isSome = true := by
  induction fs with
  | nil => simp at h
  | cons p fs ih =>
      obtain ⟨k, w⟩ := p
      by_cases hk : k = key
      · simp [assocGet, hk]
      · simp at h
        rcases h with h | h
        · exact absurd h.1.symm hk
        · simp [assocGet, hk, ih h]

theorem assocGet_of_mem_nodup (fs : List (String × α)) (key : String)
    (v : α) (hnd : nodupKeys fs = true) (h : (key, v) ∈ fs) :
    assocGet fs key = some v := by
  induction fs with
  | nil => simp at h
  | cons p fs ih =>
      obtain ⟨k, w⟩ := p
      simp [nodupKeys] at hnd
      simp at h
      rcases h with h | h
      · simp [assocGet, h.1.symm, h.2]
      · by_cases hk : k = key
        · subst hk
          have := assocGet_isSome_of_mem fs k v h
          simp [hnd.1] at this
        · simp [assocGet, hk, ih hnd.2 h]

theorem nodupKeys_assocSet (fs : List (String × α)) (key : String)
    (v : α) (hnd : nodupKeys fs = true) :
    nodupKeys (assocSet fs key v) = true := by
  induction fs with
  | nil => simp [assocSet, nodupKeys, assocGet]
  | cons p fs ih =>
      obtain ⟨k, w⟩ := p
      simp [nodupKeys] at hnd
      by_cases hk : k = key
      · subst hk
        simp [assocSet, nodupKeys, hnd.1, hnd.2]
      · simp [assocSet, hk, nodupKeys, assocGet_set_other fs key k v hk,
          hnd.1, ih hnd.2]

theorem nodupKeys_assocRemove (fs : List (String × α)) (key : String)
    (hnd : nodupKeys fs = true) :
    nodupKeys (assocRemove fs key) = true := by
  induction fs with
  | nil => simp [assocRemove, nodupKeys]
  | cons p fs ih =>
      obtain ⟨k, w⟩ := p
      simp [nodupKeys] at hnd
      by_cases hk : k = key
      · simp [assocRemove, hk, ih hnd.2]
      · have hnone : assocGet fs k = none := by
          cases hfk : assocGet fs k with
          | none => rfl
          | some u => rw [hfk] at hnd; simp at hnd
        simp [assocRemove, hk, nodupKeys, ih hnd.2,
          assocGet_remove_other fs key k (by simpa using hk), hnone]

theorem wfL_mem : ∀ (fs : List (String × JValue)) (k : String) (v : JValue),
    wfL fs = true → (k, v) ∈ fs → wfJ v = true := by
  intro fs
  induction fs with
  | nil => intro k v _ h; simp at h
  | cons p fs ih =>
      intro k v hwf h
      obtain ⟨k2, w⟩ := p
      simp [wfL] at hwf
      simp at h
      rcases h with h | h
      · exact h.2 ▸ hwf.1
      · exact ih k v hwf.2 h

theorem jeqL_of_pointwise (fs gs : List (String × JValue))
    (h : ∀ k v, (k, v) ∈ fs →
      ∃ w, assocGet gs k = some w ∧ jeq v w = true) :
    jeqL fs gs = true := by
  induction fs with
  | nil => simp [jeqL]
  | cons p fs ih =>
      obtain ⟨k, v⟩ := p
      obtain ⟨w, hw, hjw⟩ := h k v (by simp)
      simp [jeqL, hw, hjw]
      exact ih (fun k2 v2 hm => h k2 v2 (by simp [hm]))

theorem jeqL_mem (fs gs : List (String × JValue)) (k : String) (v : JValue)
    (hj : jeqL fs gs = true) (h : (k, v) ∈ fs) :
    ∃ w, assocGet gs k = some w ∧ jeq v w = true := by
  induction fs with
  | nil => simp at h
  | cons p fs ih =>
      obtain ⟨k2, v2⟩ := p
      simp only [jeqL, Bool.and_eq_true] at hj
      simp at h
      rcases h with h | h
      · obtain ⟨hk, hv⟩ := h
        subst hk; subst hv
        cases hg : assocGet gs k with
        | none => rw [hg] at hj; simp at hj
        | some w =>
            rw [hg] at hj
            exact ⟨w, rfl, hj.1⟩
      · exact ih hj.2 h

theorem keysSub_get (gs fs : List (String × JValue)) (k : String)
    (w : JValue) (hs : keysSub gs fs = true) (h : assocGet gs k = some w) :
    (assocGet fs k).isSome = true := by
  have hm := assocGet_mem gs k w h
  simp [keysSub, List.all_eq_true] at hs
  exact hs k w hm

theorem sizeOf_val_of_mem {fs : List (String × JValue)} {k : String}
    {v : JValue} (h : (k, v) ∈ fs) : sizeOf v < sizeOf (JValue.jobj fs) := by
  have h1 := List.sizeOf_lt_of_mem h
  simp only [Prod.mk.sizeOf_spec] at h1
  simp only [JValue.jobj.sizeOf_spec]
  omega

theorem jeq_refl_n : ∀ (n : Nat) (a : JValue), sizeOf a < n →
    wfJ a = true → jeq a a = true := by
  intro n
  induction n with
  | zero => intro a h; omega
  | succ n ih =>
      intro a hsz hwf
      cases a with
      | jobj fs =>
          simp only [wfJ, Bool.and_eq_true] at hwf
          simp only [jeq, Bool.and_eq_true]
          constructor
          · apply jeqL_of_pointwise
            intro k v hm
            refine ⟨v, assocGet_of_mem_nodup fs k v hwf.1 hm, ?_⟩
            apply ih v _ (wfL_mem fs k v hwf.2 hm)
            have := sizeOf_val_of_mem hm
            omega
          · simp only [keysSub, List.all_eq_true]
            intro p hm
            exact assocGet_isSome_of_mem fs p.1 p.2 (by simpa using hm)
      | jnull => simp [jeq, beqJ]
      | jbool b => simp [jeq, beqJ]
      | jnum i => simp [jeq, beqJ]
      | jstr s => simp [jeq, beqJ]

theorem jeq_refl (a : JValue) (hwf : wfJ a = true) : jeq a a = true :=
  jeq_refl_n (sizeOf a + 1) a (by omega) hwf

theorem jeq_obj_get (xs ys : List (String × JValue))
    (h : jeq (.jobj xs) (.jobj ys) = true) (k : String) :
    optJeq (assocGet xs k) (assocGet ys k) = true := by
  simp only [jeq, Bool.and_eq_true] at h
  cases hx : assocGet xs k with
  | some v =>
      obtain ⟨w, hw, hjw⟩ := jeqL_mem xs ys k v h.1 (assocGet_mem xs k v hx)
      simp [optJeq, hw, hjw]
  | none =>
      cases hy : assocGet ys k with
      | none => simp [optJeq]
      | some w =>
          have := keysSub_get ys xs k w h.2 hy
          simp [hx] at this

theorem jeq_obj_of_pointwise (xs ys : List (String × JValue))
    (hnd : nodupKeys xs = true)
    (h : ∀ k, optJeq (assocGet xs k) (assocGet ys k) = true) :
    jeq (.jobj xs) (.jobj ys) = true := by
  simp only [jeq, Bool.and_eq_true]
  constructor
  · apply jeqL_of_pointwise
    intro k v hm
    have hx := assocGet_of_mem_nodup xs k v hnd hm
    have hk := h k
    rw [hx] at hk
    cases hy : assocGet ys k with
    | none => rw [hy] at hk; simp [optJeq] at hk
    | some w =>
        rw [hy] at hk
        exact ⟨w, rfl, by simpa [optJeq] using hk⟩
  · simp only [keysSub, List.all_eq_true]
    intro p hm
    have hy := assocGet_isSome_of_mem ys p.1 p.2 (by simpa using hm)
    have hk := h p.1
    cases hx : assocGet xs p.1 with
    | some v => simp [hx]
    | none =>
        rw [hx] at hk
        cases hy2 : assocGet ys p.1 with
        | none => rw [hy2] at hy; simp at hy
        | some w => rw [hy2] at hk; simp [optJeq] at hk

theorem assocSet_assocSet (fs : List (String × α)) (key : String)
    (v w : α) : assocSet (assocSet fs key v) key w = assocSet fs key w := by
  induction fs with
  | nil => simp [assocSet]
  | cons p fs ih =>
      obtain ⟨k, u⟩ := p
      by_cases hk : k = key
      · simp [assocSet, hk]
      · simp [assocSet, hk, ih]

theorem assocSet_self_value (fs : List (String × α)) (k : String)
    (c : α) (hc : assocGet fs k = some c) : assocSet fs k c = fs := by
  induction fs with
  | nil => simp [assocGet] at hc
  | cons p fs ih =>
      obtain ⟨k2, w⟩ := p
      by_cases hk : k2 = k
      · subst hk
        simp [assocGet] at hc
        simp [assocSet, hc]
      · simp [assocGet, hk] at hc
        simp [assocSet, hk, ih hc]

theorem applyJP_under_key (fs : List (String × JValue)) (k : String)
    (c : JValue) (p : JPatch) (hc : assocGet fs k = some c)
    (hrm : p.op = .remove → p.path ≠ []) :
    applyJP (.jobj fs) (prefixPatch k p) =
      .jobj (assocSet fs k (applyJP c p)) := by
  obtain ⟨op, path, v⟩ := p
  cases path with
  | nil =>
      cases op with
      | remove => exact absurd rfl (hrm rfl)
      | add => simp [applyJP, prefixPatch, applyAt]
      | replace => simp [applyJP, prefixPatch, applyAt]
  | cons k2 rest =>
      simp [applyJP, prefixPatch, applyAt, hc]

theorem applyJPs_under_key (ps : List JPatch) (fs : List (String × JValue))
    (k : String) (c : JValue) (hc : assocGet fs k = some c)
    (hrm : ∀ p ∈ ps, p.op = .remove → p.path ≠ []) :
    applyJPs (.jobj fs) (ps.map (prefixPatch k)) =
      .jobj (assocSet fs k (applyJPs c ps)) := by
  induction ps generalizing fs c with
  | nil =>
      simp [applyJPs, assocSet_self_value fs k c hc]
  | cons p ps ih =>
      simp only [List.map_cons, applyJPs, List.foldl_cons]
      rw [show List.foldl applyJP (applyJP (JValue.jobj fs) (prefixPatch k p))
            (List.map (prefixPatch k) ps) =
          applyJPs (applyJP (JValue.jobj fs) (prefixPatch k p))
            (ps.map (prefixPatch k)) from rfl]
      rw [applyJP_under_key fs k c p hc (hrm p (by simp))]
      rw [ih (assocSet fs k (applyJP c p)) (applyJP c p)
        (assocGet_set_self fs k (applyJP c p))
        (fun q hq => hrm q (by simp [hq]))]
      rw [assocSet_assocSet]
      rfl

theorem applyAt_obj_nonempty (op : POp) (v : JValue)
    (fs : List (String × JValue)) (path : List String) (h : path ≠ []) :
    ∃ fs2, applyAt op v (.jobj fs) path = .jobj fs2 := by
  cases path with
  | nil => exact absurd rfl h
  | cons k rest =>
      cases rest with
      | nil => exact ⟨_, rfl⟩
      | cons k2 rest2 =>
          simp only [applyAt]
          cases assocGet fs k <;> exact ⟨_, rfl⟩

theorem applyJP_frame (fs : List (String × JValue)) (p : JPatch)
    (k k2 : String) (rest : List String) (hp : p.path = k :: rest)
    (hne : k2 ≠ k) :
    ∃ fs2, applyJP (.jobj fs) p = .jobj fs2 ∧
      assocGet fs2 k2 = assocGet fs k2 := by
  obtain ⟨op, path, v⟩ := p
  simp only at hp
  subst hp
  cases rest with
  | nil =>
      cases op with
      | remove =>
          exact ⟨_, rfl, assocGet_remove_other fs k k2 hne⟩
      | add => exact ⟨_, rfl, assocGet_set_other fs k k2 v hne⟩
      | replace => exact ⟨_, rfl, assocGet_set_other fs k k2 v hne⟩
  | cons k3 rest2 =>
      simp only [applyJP, applyAt]
      cases hg : assocGet fs k with
      | none => exact ⟨fs, rfl, rfl⟩
      | some c => exact ⟨_, rfl, assocGet_set_other fs k k2 _ hne⟩

theorem applyJPs_append (s : JValue) (l1 l2 : List JPatch) :
    applyJPs s (l1 ++ l2) = applyJPs (applyJPs s l1) l2 :=
  List.foldl_append _ _ _ _

theorem assocGet_isSome_iff (fs : List (String × α)) (k : String) :
    (assocGet fs k).isSome = true ↔ ∃ v, (k, v) ∈ fs := by
  constructor
  · intro h
    cases hg : assocGet fs k with
    | none => rw [hg] at h; simp at h
    | some v => exact ⟨v, assocGet_mem fs k v hg⟩
  · rintro ⟨v, hv⟩
    exact assocGet_isSome_of_mem fs k v hv

theorem mem_removedKeys (fs : List (String × α))
    (gs : List (String × β)) (k : String) :
    k ∈ removedKeys fs gs ↔
      (assocGet fs k).isSome = true ∧ assocGet gs k = none := by
  simp only [removedKeys, List.mem_map, List.mem_filter]
  constructor
  · rintro ⟨p, ⟨hp, hq⟩, rfl⟩
    refine ⟨assocGet_isSome_of_mem fs p.1 p.2 hp, ?_⟩
    cases hg : assocGet gs p.1 with
    | none => rfl
    | some w => rw [hg] at hq; simp at hq
  · rintro ⟨hs, hn⟩
    obtain ⟨v, hv⟩ := (assocGet_isSome_iff fs k).mp hs
    exact ⟨(k, v), ⟨hv, by simp [hn]⟩, rfl⟩

theorem applyJPs_removes (fs : List (String × JValue)) (ks : List String) :
    applyJPs (.jobj fs)
      (ks.map (fun k => (⟨.remove, [k], .jnull⟩ : JPatch))) =
      .jobj (ks.foldl assocRemove fs) := by
  induction ks generalizing fs with
  | nil => rfl
  | cons k ks ih =>
      simp only [List.map_cons, applyJPs, List.foldl_cons]
      exact ih (assocRemove fs k)

theorem foldl_assocRemove_get (ks : List String) (fs : List (String × α))
    (k : String) :
    assocGet (ks.foldl assocRemove fs) k =
      if k ∈ ks then none else assocGet fs k := by
  induction ks generalizing fs with
  | nil => simp
  | cons k0 ks ih =>
      simp only [List.foldl_cons]
      rw [ih]
      by_cases hk : k = k0
      · subst hk
        simp [assocGet_remove_self]
      · simp [hk, assocGet_remove_other fs k0 k hk]

theorem foldl_assocRemove_nodup (ks : List String)
    (fs : List (String × α)) (hnd : nodupKeys fs = true) :
    nodupKeys (ks.foldl assocRemove fs) = true := by
  induction ks generalizing fs with
  | nil => exact hnd
  | cons k0 ks ih =>
      exact ih (assocRemove fs k0) (nodupKeys_assocRemove fs k0 hnd)

theorem jdiffL_path_ne_nil (gs : List (String × JValue)) :
    ∀ (fs : List (String × JValue)), ∀ p ∈ jdiffL fs gs, p.path ≠ [] := by
  induction gs with
  | nil => intro fs p hp; simp [jdiffL] at hp
  | cons q gs ih =>
      intro fs p hp
      obtain ⟨k, bv⟩ := q
      rw [jdiffL] at hp
      rw [List.mem_append] at hp
      rcases hp with hp | hp
      · cases hfk : assocGet fs k with
        | none => rw [hfk] at hp; simp at hp; simp [hp]
        | some av =>
            rw [hfk] at hp
            simp only [List.mem_map] at hp
            obtain ⟨q, _, rfl⟩ := hp
            simp [prefixPatch]
      · exact ih fs p hp

theorem beqJ_true_of_eq (a b : JValue) (h : a = b) : beqJ a b = true :=
  (beqJ_iff a b).mpr h

theorem beqJ_false_of_ne (a b : JValue) (h : a ≠ b) : beqJ a b ≠ true :=
  fun h2 => h ((beqJ_iff a b).mp h2)

theorem jdiff_remove_path_ne_nil (a b : JValue) (p : JPatch)
    (hp : p ∈ jdiff a b) (hop : p.op = .remove) : p.path ≠ [] := by
  by_cases hab : a = b
  · rw [jdiff.eq_def] at hp
    rw [if_pos (beqJ_true_of_eq a b hab)] at hp
    simp at hp
  · rw [jdiff.eq_def] at hp
    rw [if_neg (beqJ_false_of_ne a b hab)] at hp
    cases a <;> cases b <;>
      first
      | (simp only [List.mem_singleton] at hp; subst hp; simp at hop)
      | (rw [List.mem_append] at hp
         rcases hp with hp | hp
         · simp only [List.mem_map] at hp
           obtain ⟨k, _, rfl⟩ := hp
           simp
         · exact jdiffL_path_ne_nil _ _ p hp)

theorem jdiffL_cons_none (fs gs : List (String × JValue)) (k : String)
    (bv : JValue) (h : assocGet fs k = none) :
    jdiffL fs ((k, bv) :: gs) =
      (⟨.add, [k], bv⟩ : JPatch) :: jdiffL fs gs := by
  rw [jdiffL, h]
  simp

theorem jdiffL_cons_some (fs gs : List (String × JValue)) (k : String)
    (bv av : JValue) (h : assocGet fs k = some av) :
    jdiffL fs ((k, bv) :: gs) =
      (jdiff av bv).map (prefixPatch k) ++ jdiffL fs gs := by
  rw [jdiffL, h]

theorem applyJPs_jdiffL (gs : List (String × JValue)) :
    ∀ (h fs : List (String × JValue)),
    nodupKeys gs = true → wfL gs = true →
    (∀ k bv, (k, bv) ∈ gs → ∀ av, assocGet fs k = some av →
        assocGet h k = some av) →
    (∀ k bv av, (k, bv) ∈ gs → assocGet fs k = some av →
        jeq (applyJPs av (jdiff av bv)) bv = true) →
    ∃ h2, applyJPs (.jobj h) (jdiffL fs gs) = .jobj h2 ∧
      (∀ k bv, assocGet gs k = some bv →
          optJeq (assocGet h2 k) (some bv) = true) ∧
      (∀ k, assocGet gs k = none → assocGet h2 k = assocGet h k) ∧
      (nodupKeys h = true → nodupKeys h2 = true) := by
  induction gs with
  | nil =>
      intro h fs _ _ _ _
      refine ⟨h, by simp [jdiffL, applyJPs], ?_, ?_, ?_⟩
      · intro k bv hg; simp [assocGet] at hg
      · intro k _; rfl
      · exact fun x => x
  | cons q gs ih =>
      intro h fs hnd hwf hagree hinner
      obtain ⟨k, bv⟩ := q
      simp only [nodupKeys, Bool.and_eq_true] at hnd
      have hndk : assocGet gs k = none := by
        cases hg : assocGet gs k with
        | none => rfl
        | some u => rw [hg] at hnd; simp at hnd
      have hndgs : nodupKeys gs = true := hnd.2
      simp only [wfL, Bool.and_eq_true] at hwf
      have hwfbv : wfJ bv = true := hwf.1
      have hwfgs : wfL gs = true := hwf.2
      have hmemk : ∀ k2 bv2, (k2, bv2) ∈ gs → k2 ≠ k := by
        intro k2 bv2 hm heq
        subst heq
        rw [assocGet_of_mem_nodup gs k2 bv2 hndgs hm] at hndk
        exact Option.noConfusion hndk
      cases hfk : assocGet fs k with
      | none =>
          rw [jdiffL_cons_none fs gs k bv hfk]
          have hstep : applyJPs (.jobj h)
              ((⟨.add, [k], bv⟩ : JPatch) :: jdiffL fs gs) =
              applyJPs (.jobj (assocSet h k bv)) (jdiffL fs gs) := rfl
          rw [hstep]
          obtain ⟨h2, heq, hcons, hmiss, hnd2⟩ :=
            ih (assocSet h k bv) fs hndgs hwfgs
              (fun k2 bv2 hm av hav => by
                rw [assocGet_set_other h k k2 bv (hmemk k2 bv2 hm)]
                exact hagree k2 bv2 (by simp [hm]) av hav)
              (fun k2 bv2 av hm hav =>
                hinner k2 bv2 av (by simp [hm]) hav)
          refine ⟨h2, heq, ?_, ?_, ?_⟩
          · intro k2 bv2 hg2
            by_cases hk2 : k2 = k
            · subst hk2
              simp [assocGet] at hg2
              subst hg2
              rw [hmiss k2 hndk, assocGet_set_self]
              simpa [optJeq] using jeq_refl bv hwfbv
            · rw [assocGet] at hg2
              simp [Ne.symm hk2] at hg2
              exact hcons k2 bv2 hg2
          · intro k2 hg2
            rw [assocGet] at hg2
            by_cases hk2 : k = k2
            · simp [hk2] at hg2
            · simp [hk2] at hg2
              rw [hmiss k2 hg2,
                assocGet_set_other h k k2 bv (fun hh => hk2 hh.symm)]
          · intro hndh
            exact hnd2 (nodupKeys_assocSet h k bv hndh)
      | some av =>
          rw [jdiffL_cons_some fs gs k bv av hfk]
          rw [applyJPs_append]
          have hhk : assocGet h k = some av :=
            hagree k bv (by simp) av hfk
          rw [applyJPs_under_key (jdiff av bv) h k av hhk
            (fun p hp => jdiff_remove_path_ne_nil av bv p hp)]
          have hw : jeq (applyJPs av (jdiff av bv)) bv = true :=
            hinner k bv av (by simp) hfk
          obtain ⟨h2, heq, hcons, hmiss, hnd2⟩ :=
            ih (assocSet h k (applyJPs av (jdiff av bv))) fs hndgs hwfgs
              (fun k2 bv2 hm av2 hav => by
                rw [assocGet_set_other h k k2 _ (hmemk k2 bv2 hm)]
                exact hagree k2 bv2 (by simp [hm]) av2 hav)
              (fun k2 bv2 av2 hm hav =>
                hinner k2 bv2 av2 (by simp [hm]) hav)
          refine ⟨h2, heq, ?_, ?_, ?_⟩
          · intro k2 bv2 hg2
            by_cases hk2 : k2 = k
            · subst hk2
              simp [assocGet] at hg2
              subst hg2
              rw [hmiss k2 hndk, assocGet_set_self]
              simpa [optJeq] using hw
            · rw [assocGet] at hg2
              simp [Ne.symm hk2] at hg2
              exact hcons k2 bv2 hg2
          · intro k2 hg2
            rw [assocGet] at hg2
            by_cases hk2 : k = k2
            · simp [hk2] at hg2
            · simp [hk2] at hg2
              rw [hmiss k2 hg2,
                assocGet_set_other h k k2 _ (fun hh => hk2 hh.symm)]
          · intro hndh
            exact hnd2 (nodupKeys_assocSet h k _ hndh)

theorem jdiff_obj (fs gs : List (String × JValue))
    (hne : JValue.jobj fs ≠ .jobj gs) :
    jdiff (.jobj fs) (.jobj gs) =
      (removedKeys fs gs).map (fun k => (⟨.remove, [k], .jnull⟩ : JPatch)) ++
        jdiffL fs gs := by
  rw [jdiff.eq_def, if_neg (beqJ_false_of_ne _ _ hne)]

theorem jdiff_roundtrip_n : ∀ (n : Nat), ∀ (b a : JValue), sizeOf b < n →
    wfJ a = true → wfJ b = true →
    jeq (applyJPs a (jdiff a b)) b = true := by
  intro n
  induction n with
  | zero => intro b a h; omega
  | succ n ih =>
      intro b a hsz hwa hwb
      by_cases hab : a = b
      · subst hab
        rw [jdiff.eq_def, if_pos (beqJ_true_of_eq a a rfl)]
        exact jeq_refl a hwa
      · cases a with
        | jobj fs =>
            cases b with
            | jobj gs =>
                rw [jdiff_obj fs gs hab, applyJPs_append, applyJPs_removes]
                simp only [wfJ, Bool.and_eq_true] at hwa hwb
                have hnd1 : nodupKeys
                    ((removedKeys fs gs).foldl assocRemove fs) = true :=
                  foldl_assocRemove_nodup _ fs hwa.1
                obtain ⟨h2, heq, hcons, hmiss, hnd2⟩ :=
                  applyJPs_jdiffL gs
                    ((removedKeys fs gs).foldl assocRemove fs) fs
                    hwb.1 hwb.2
                    (fun k bv hm av hav => by
                      rw [foldl_assocRemove_get]
                      have hks : k ∉ removedKeys fs gs := by
                        intro hk
                        have := (mem_removedKeys fs gs k).mp hk
                        rw [assocGet_of_mem_nodup gs k bv hwb.1 hm]
                          at this
                        exact Option.noConfusion this.2
                      simp [hks, hav])
                    (fun k bv av hm hav => by
                      apply ih bv av
                      · have h1 := sizeOf_val_of_mem hm
                        omega
                      · exact wfL_mem fs k av hwa.2 (assocGet_mem fs k av hav)
                      · exact wfL_mem gs k bv hwb.2 hm)
                rw [heq]
                apply jeq_obj_of_pointwise h2 gs (hnd2 hnd1)
                intro k
                cases hg : assocGet gs k with
                | some bv => exact hcons k bv hg
                | none =>
                    rw [hmiss k hg, foldl_assocRemove_get]
                    by_cases hks : k ∈ removedKeys fs gs
                    · simp [hks, optJeq]
                    · have hfk : assocGet fs k = none := by
                        cases hf : assocGet fs k with
                        | none => rfl
                        | some v =>
                            exact absurd ((mem_removedKeys fs gs k).mpr
                              ⟨by simp [hf], hg⟩) hks
                      simp [hks, hfk, optJeq]
            | jnull =>
                rw [jdiff.eq_def, if_neg (beqJ_false_of_ne _ _ hab)]
                exact jeq_refl _ hwb
            | jbool b0 =>
                rw [jdiff.eq_def, if_neg (beqJ_false_of_ne _ _ hab)]
                exact jeq_refl _ hwb
            | jnum b0 =>
                rw [jdiff.eq_def, if_neg (beqJ_false_of_ne _ _ hab)]
                exact jeq_refl _ hwb
            | jstr b0 =>
                rw [jdiff.eq_def, if_neg (beqJ_false_of_ne _ _ hab)]
                exact jeq_refl _ hwb
        | jnull =>
            cases b <;> (rw [jdiff.eq_def, if_neg (beqJ_false_of_ne _ _ hab)]; exact jeq_refl _ hwb)
        | jbool a0 =>
            cases b <;> (rw [jdiff.eq_def, if_neg (beqJ_false_of_ne _ _ hab)]; exact jeq_refl _ hwb)
        | jnum a0 =>
            cases b <;> (rw [jdiff.eq_def, if_neg (beqJ_false_of_ne _ _ hab)]; exact jeq_refl _ hwb)
        | jstr a0 =>
            cases b <;> (rw [jdiff.eq_def, if_neg (beqJ_false_of_ne _ _ hab)]; exact jeq_refl _ hwb)

/-- The produceWithPatches inverse-script contract: applying the diff
from a to b onto a restores b up to structural equality of the maps. -/
theorem jdiff_roundtrip (a b : JValue) (hwa : wfJ a = true)
    (hwb : wfJ b = true) : jeq (applyJPs a (jdiff a b)) b = true :=
  jdiff_roundtrip_n (sizeOf b + 1) b a (by omega) hwa hwb

theorem applyPatchesState_append (s : GameState) (l1 l2 : List Patch) :
    applyPatchesState s (l1 ++ l2) =
      applyPatchesState (applyPatchesState s l1) l2 :=
  List.foldl_append _ _ _ _

theorem applyPatchesState_ents (l : List JPatch) :
    ∀ (s : GameState), (∀ p ∈ l, p.path ≠ []) →
    ∃ fs2, applyJPs (.jobj s.entities) l = .jobj fs2 ∧
      applyPatchesState s
        (l.map (fun p => Patch.ent p.op p.path p.value)) =
        { s with entities := fs2 } := by
  induction l with
  | nil => intro s _; exact ⟨s.entities, rfl, rfl⟩
  | cons p l ih =>
      intro s hne
      obtain ⟨fs2, heq⟩ :=
        applyAt_obj_nonempty p.op p.value s.entities p.path
          (hne p (by simp))
      obtain ⟨fs3, heq3, happ⟩ :=
        ih { s with entities := fs2 } (fun q hq => hne q (by simp [hq]))
      refine ⟨fs3, ?_, ?_⟩
      · simp only [applyJPs, List.foldl_cons]
        rw [show applyJP (JValue.jobj s.entities) p = .jobj fs2 from heq]
        exact heq3
      · simp only [List.map_cons, applyPatchesState, List.foldl_cons]
        have hstep : applyPatchState s (Patch.ent p.op p.path p.value) =
            { s with entities := fs2 } := by
          simp only [applyPatchState, applyEnt]
          rw [show applyAt p.op p.value (JValue.jobj s.entities) p.path =
            .jobj fs2 from heq]
        rw [hstep]
        exact happ

theorem jdiff_obj_path_ne_nil (fs gs : List (String × JValue)) :
    ∀ p ∈ jdiff (.jobj fs) (.jobj gs), p.path ≠ [] := by
  intro p hp
  by_cases h : (JValue.jobj fs) = .jobj gs
  · rw [jdiff.eq_def, if_pos (beqJ_true_of_eq _ _ h)] at hp
    simp at hp
  · rw [jdiff_obj fs gs h] at hp
    rw [List.mem_append] at hp
    rcases hp with hp | hp
    · simp only [List.mem_map] at hp
      obtain ⟨k, _, rfl⟩ := hp
      simp
    · exact jdiffL_path_ne_nil gs fs p hp

theorem applyPatchesState_ptxRemoves (ks : List String) :
    ∀ (s : GameState),
    applyPatchesState s (ks.map (fun k => Patch.ptx .remove k none)) =
      { s with pendingTransactions :=
          (ks.foldl assocRemove s.pendingTransactions) } := by
  induction ks with
  | nil => intro s; rfl
  | cons k ks ih =>
      intro s
      simp only [List.map_cons, applyPatchesState, List.foldl_cons]
      exact ih { s with pendingTransactions :=
        (assocRemove s.pendingTransactions k) }

theorem applyPatchesState_ptxAdds (q : List (String × PendingTransaction)) :
    ∀ (s : GameState),
    applyPatchesState s (ptxAdds q) =
      { s with pendingTransactions :=
          (q.foldl (fun acc p => assocSet acc p.1 p.2)
            s.pendingTransactions) } := by
  induction q with
  | nil => intro s; rfl
  | cons p q ih =>
      intro s
      simp only [ptxAdds, List.map_cons, applyPatchesState, List.foldl_cons]
      have := ih { s with pendingTransactions :=
        (assocSet s.pendingTransactions p.1 p.2) }
      simp only [ptxAdds] at this
      exact this

theorem foldl_assocSet_pairs_none (q : List (String × α)) :
    ∀ (base : List (String × α)) (k : String),
    assocGet q k = none →
    assocGet (q.foldl (fun acc p => assocSet acc p.1 p.2) base) k =
      assocGet base k := by
  induction q with
  | nil => intro base k _; rfl
  | cons p q ih =>
      intro base k hg
      obtain ⟨k0, v0⟩ := p
      rw [assocGet] at hg
      by_cases hk : k0 = k
      · simp [hk] at hg
      · simp [hk] at hg
        simp only [List.foldl_cons]
        rw [ih (assocSet base k0 v0) k hg]
        exact assocGet_set_other base k0 k v0 (fun hh => hk hh.symm)

theorem foldl_assocSet_pairs_some (q : List (String × α)) :
    ∀ (base : List (String × α)) (k : String) (v : α),
    nodupKeys q = true → assocGet q k = some v →
    assocGet (q.foldl (fun acc p => assocSet acc p.1 p.2) base) k =
      some v := by
  induction q with
  | nil => intro base k v _ hg; simp [assocGet] at hg
  | cons p q ih =>
      intro base k v hnd hg
      obtain ⟨k0, v0⟩ := p
      simp only [nodupKeys, Bool.and_eq_true] at hnd
      simp only [List.foldl_cons]
      by_cases hk : k0 = k
      · subst hk
        simp [assocGet] at hg
        subst hg
        have hq : assocGet q k0 = none := by
          cases hq2 : assocGet q k0 with
          | none => rfl
          | some u => rw [hq2] at hnd; simp at hnd
        rw [foldl_assocSet_pairs_none q (assocSet base k0 v0) k0 hq]
        exact assocGet_set_self base k0 v0
      · rw [assocGet] at hg
        simp [hk] at hg
        exact ih (assocSet base k0 v0) k v hnd.2 hg

theorem wfJ_obj_eq_wfEnts (fs : List (String × JValue)) :
    wfJ (.jobj fs) = wfEnts fs := by
  rw [wfJ, wfEnts]

theorem revert_after_apply (S : GameState) (f : GameState → GameState)
    (tid : String) (hwfS : wfState S = true)
    (hwfN : wfState (f S) = true)
    (htid : assocGet S.pendingTransactions tid = none) :
    stateEquiv (revertOptimisticUpdate tid (applyOptimisticUpdate tid f S))
      S := by
  simp only [wfState, Bool.and_eq_true] at hwfS hwfN
  have hA : applyOptimisticUpdate tid f S =
      { entities := (f S).entities,
        pendingTransactions :=
          (assocSet (f S).pendingTransactions tid
            (.mk tid (diffState S (f S)) (diffState (f S) S))) } := rfl
  have hget : assocGet
      (applyOptimisticUpdate tid f S).pendingTransactions tid =
      some (.mk tid (diffState S (f S)) (diffState (f S) S)) := by
    rw [hA]
    exact assocGet_set_self _ _ _
  obtain ⟨fs2, hfs2eq, hents⟩ :=
    applyPatchesState_ents
      (jdiff (.jobj ((f S).entities)) (.jobj S.entities))
      (applyOptimisticUpdate tid f S)
      (jdiff_obj_path_ne_nil _ _)
  have hrt : jeq (.jobj fs2) (.jobj S.entities) = true := by
    have h0 := jdiff_roundtrip (.jobj ((f S).entities))
      (.jobj S.entities)
      (by rw [wfJ_obj_eq_wfEnts]; exact hwfN.1)
      (by rw [wfJ_obj_eq_wfEnts]; exact hwfS.1)
    have hAe : (applyOptimisticUpdate tid f S).entities =
      (f S).entities := rfl
    rw [hAe] at hfs2eq
    rw [hfs2eq] at h0
    exact h0
  have hB : applyPatchesState (applyOptimisticUpdate tid f S)
      (diffState (f S) S) =
      { entities := fs2,
        pendingTransactions :=
          (S.pendingTransactions.foldl
            (fun acc p => assocSet acc p.1 p.2)
            ((removedKeys (f S).pendingTransactions
                S.pendingTransactions).foldl assocRemove
              (assocSet (f S).pendingTransactions tid
                (.mk tid (diffState S (f S)) (diffState (f S) S))))) } := by
    show applyPatchesState (applyOptimisticUpdate tid f S)
      (entPatches (f S).entities S.entities ++
        (ptxRemoves (f S).pendingTransactions S.pendingTransactions ++
          ptxAdds S.pendingTransactions)) = _
    rw [applyPatchesState_append, applyPatchesState_append]
    rw [show entPatches (f S).entities S.entities =
      (jdiff (.jobj ((f S).entities)) (.jobj S.entities)).map
        (fun p => Patch.ent p.op p.path p.value) from rfl]
    rw [hents]
    rw [show ptxRemoves (f S).pendingTransactions S.pendingTransactions =
      (removedKeys (f S).pendingTransactions S.pendingTransactions).map
        (fun k => Patch.ptx .remove k none) from rfl]
    rw [applyPatchesState_ptxRemoves, applyPatchesState_ptxAdds]
    rfl
  have hfinal : revertOptimisticUpdate tid (applyOptimisticUpdate tid f S) =
      { entities := fs2,
        pendingTransactions :=
          (assocRemove
            (S.pendingTransactions.foldl
              (fun acc p => assocSet acc p.1 p.2)
              ((removedKeys (f S).pendingTransactions
                  S.pendingTransactions).foldl assocRemove
                (assocSet (f S).pendingTransactions tid
                  (.mk tid (diffState S (f S)) (diffState (f S) S)))))
            tid) } := by
    unfold revertOptimisticUpdate
    rw [hget]
    simp only [PendingTransaction.inversePatches]
    rw [hB]
  rw [hfinal]
  constructor
  · intro k
    exact jeq_obj_get fs2 S.entities hrt k
  · intro k
    by_cases hk : k = tid
    · subst hk
      rw [assocGet_remove_self, htid]
    · rw [assocGet_remove_other _ tid k hk]
      cases hS : assocGet S.pendingTransactions k with
      | some v =>
          rw [foldl_assocSet_pairs_some S.pendingTransactions _ k v
            hwfS.2 hS]
      | none =>
          rw [foldl_assocSet_pairs_none S.pendingTransactions _ k hS]
          rw [foldl_assocRemove_get]
          by_cases hks : k ∈ removedKeys (f S).pendingTransactions
              S.pendingTransactions
          · simp [hks]
          · have hNk : assocGet (f S).pendingTransactions k = none := by
              cases hNk2 : assocGet (f S).pendingTransactions k with
              | none => rfl
              | some u =>
                  exact absurd ((mem_removedKeys _ _ k).mpr
                    ⟨by simp [hNk2], hS⟩) hks
            simp [hks]
            rw [assocGet_set_other _ tid k _ hk, hNk]

theorem navGet_applyAt_replace (path : List String) :
    ∀ (s v : JValue), reaches s path = true →
    navGet (applyAt .replace v s path) path = some v := by
  induction path with
  | nil => intro s v _; simp [navGet, applyAt]
  | cons k rest ih =>
      intro s v hr
      cases s with
      | jobj fs =>
          cases rest with
          | nil =>
              simp only [applyAt, navGet, assocGet_set_self]
          | cons k2 rest2 =>
              rw [reaches] at hr
              cases hg : assocGet fs k with
              | none => rw [hg] at hr; simp at hr
              | some c =>
                  rw [hg] at hr
                  simp only [applyAt, hg, navGet, assocGet_set_self]
                  exact ih c v hr
      | jnull => simp [reaches] at hr
      | jbool b0 => simp [reaches] at hr
      | jnum n0 => simp [reaches] at hr
      | jstr s0 => simp [reaches] at hr

theorem navGet_obj_cons (fs : List (String × JValue)) (k : String)
    (rest : List String) (v : JValue)
    (h : navGet (.jobj fs) (k :: rest) = some v) :
    ∃ c, assocGet fs k = some c ∧ navGet c rest = some v := by
  rw [navGet] at h
  cases hg : assocGet fs k with
  | none => rw [hg] at h; simp at h
  | some c => rw [hg] at h; exact ⟨c, rfl, h⟩

theorem mergeModels_get_absent (ums : List (String × JValue)) :
    ∀ (ex : List (String × JValue)) (ns : String),
    assocGet ums ns = none →
    assocGet (mergeModels ex ums) ns = assocGet ex ns := by
  induction ums with
  | nil => intro ex ns _; rfl
  | cons p ums ih =>
      intro ex ns hg
      obtain ⟨n0, m0⟩ := p
      rw [assocGet] at hg
      by_cases hn : n0 = ns
      · simp [hn] at hg
      · simp [hn] at hg
        simp only [mergeModels, List.foldl_cons]
        have := ih (assocSet ex n0
          (.jobj (mergeObj (asObj (assocGet ex n0)) (asObj (some m0)))))
          ns hg
        simp only [mergeModels] at this
        rw [this]
        exact assocGet_set_other ex n0 ns _ (fun hh => hn hh.symm)

theorem mergeModels_get_present (ums : List (String × JValue)) :
    ∀ (ex : List (String × JValue)) (ns : String) (nsv : JValue),
    nodupKeys ums = true →
    assocGet ums ns = some nsv →
    assocGet (mergeModels ex ums) ns =
      some (.jobj (mergeObj (asObj (assocGet ex ns)) (asObj (some nsv)))) := by
  induction ums with
  | nil => intro ex ns nsv _ hg; simp [assocGet] at hg
  | cons p ums ih =>
      intro ex ns nsv hnd hg
      obtain ⟨n0, m0⟩ := p
      simp only [nodupKeys, Bool.and_eq_true] at hnd
      rw [assocGet] at hg
      by_cases hn : n0 = ns
      · subst hn
        simp at hg
        subst hg
        have hrest : assocGet ums n0 = none := by
          cases h2 : assocGet ums n0 with
          | none => rfl
          | some u => rw [h2] at hnd; simp at hnd
        simp only [mergeModels, List.foldl_cons]
        have := mergeModels_get_absent ums
          (assocSet ex n0
            (.jobj (mergeObj (asObj (assocGet ex n0)) (asObj (some m0)))))
          n0 hrest
        simp only [mergeModels] at this
        rw [this, assocGet_set_self]
      · simp [hn] at hg
        simp only [mergeModels, List.foldl_cons]
        have := ih (assocSet ex n0
          (.jobj (mergeObj (asObj (assocGet ex n0)) (asObj (some m0)))))
          ns nsv hnd.2 hg
        simp only [mergeModels] at this
        rw [this,
          assocGet_set_other ex n0 ns _ (fun hh => hn hh.symm)]

theorem setEnts_foldl_other (es : List ParsedEntity) :
    ∀ (base : List (String × JValue)) (id : String),
    (∀ e ∈ es, e.entityId ≠ id) →
    assocGet (es.foldl (fun acc e => assocSet acc e.entityId e.toJ) base)
      id = assocGet base id := by
  induction es with
  | nil => intro base id _; rfl
  | cons e es ih =>
      intro base id h
      simp only [List.foldl_cons]
      rw [ih (assocSet base e.entityId e.toJ) id
        (fun e2 hm => h e2 (by simp [hm]))]
      exact assocGet_set_other base e.entityId id e.toJ
        (fun hh => h e (by simp) hh.symm)

theorem waitStep_absorb (entityId : String)
    (predicate : Option JValue → Bool) (timeout : Nat)
    (st : WaitOutcome) (h : st ≠ .pending) (ev : WaitEvent) :
    waitStep entityId predicate timeout st ev = st := by
  cases st with
  | pending => exact absurd rfl h
  | resolved v => rfl
  | rejectedTimeout t => rfl
  | rejectedError => rfl

theorem waitRun_absorb (entityId : String)
    (predicate : Option JValue → Bool) (timeout : Nat)
    (evs : List WaitEvent) (st : WaitOutcome) (h : st ≠ .pending) :
    evs.foldl (waitStep entityId predicate timeout) st = st := by
  induction evs with
  | nil => rfl
  | cons ev evs ih =>
      simp only [List.foldl_cons]
      rw [waitStep_absorb entityId predicate timeout st h ev]
      exact ih

theorem waitRun_inert (entityId : String)
    (predicate : Option JValue → Bool) (timeout : Nat)
    (pre : List WaitEvent)
    (h : ∀ ev ∈ pre, ∃ s2, ev = .notify s2 ∧
      predicate (assocGet s2.entities entityId) = false) :
    pre.foldl (waitStep entityId predicate timeout) .pending =
      .pending := by
  induction pre with
  | nil => rfl
  | cons ev pre ih =>
      obtain ⟨s2, rfl, hs2⟩ := h ev (by simp)
      simp only [List.foldl_cons, waitStep, hs2]
      exact ih (fun ev2 hm => h ev2 (by simp [hm]))

/-- C1: applying an optimistic update for a fresh transaction id and
then immediately reverting it, with no other mutation in between,
returns the store to a state structurally equal to the original one,
on both the entities record and the pendingTransactions record, which
again has no entry for the transaction id. -/
theorem C1_revert_roundtrip (S : GameState) (f : GameState → GameState)
    (tid : String) (hwfS : wfState S = true)
    (hwfN : wfState (f S) = true)
    (htid : assocGet S.pendingTransactions tid = none) :
    stateEquiv (revertOptimisticUpdate tid (applyOptimisticUpdate tid f S))
      S ∧
    assocGet (revertOptimisticUpdate tid
      (applyOptimisticUpdate tid f S)).pendingTransactions tid = none := by
  have h := revert_after_apply S f tid hwfS hwfN htid
  exact ⟨h, by rw [h.2 tid, htid]⟩

theorem C1_revert_roundtrip_witness :
    wfState sampleState = true ∧
    wfState (bumpEdit sampleState) = true ∧
    assocGet sampleState.pendingTransactions "t1" = none ∧
    (stateEquiv (revertOptimisticUpdate "t1"
        (applyOptimisticUpdate "t1" bumpEdit sampleState)) sampleState ∧
      assocGet (revertOptimisticUpdate "t1"
        (applyOptimisticUpdate "t1"
          bumpEdit sampleState)).pendingTransactions "t1" = none) :=
  ⟨rfl, rfl, rfl,
    C1_revert_roundtrip sampleState bumpEdit "t1" rfl rfl rfl⟩

/-- C2 counterexample: the first snapshot emitted to subscribers during
applyOptimisticUpdate has the optimistic mutation applied (remaining is
already 100, against 0 in the starting state) while the ledger record
for the transaction id is still missing, so a reader can observe the
mutation without the record. -/
theorem C2_atomicity_counterexample :
    (bumpEdit sampleState) ∈
      applyOptimisticEmits "t1" bumpEdit sampleState ∧
    navGet (.jobj (bumpEdit sampleState).entities)
      ["e1", "models", "dojo", "Moves", "remaining"] = some (.jnum 100) ∧
    assocGet (bumpEdit sampleState).pendingTransactions "t1" = none ∧
    navGet (.jobj sampleState.entities)
      ["e1", "models", "dojo", "Moves", "remaining"] = some (.jnum 0) :=
  ⟨List.mem_cons_self _ _, rfl, rfl, rfl⟩

/-- C2 amended: applyOptimisticUpdate emits exactly two snapshots, the
edited state followed by the final state; only the final one is
current when the call returns, and in it the entity mutation is
applied and the ledger record for the transaction id is present, so
the intermediate mutation-without-record state is observable only as
the single snapshot emitted between the set and update calls. -/
theorem C2_atomicity_amended (tid : String) (f : GameState → GameState)
    (s : GameState) :
    applyOptimisticEmits tid f s =
      [f s, applyOptimisticUpdate tid f s] ∧
    (applyOptimisticUpdate tid f s).entities = (f s).entities ∧
    assocGet (applyOptimisticUpdate tid f s).pendingTransactions tid =
      some (.mk tid (diffState s (f s)) (diffState (f s) s)) :=
  ⟨rfl, rfl, assocGet_set_self _ _ _⟩

/-- C3: updating an existing entity merges the update models into its
stored models namespace by namespace: a namespace absent from the
update keeps its stored value, and within a namespace present in the
update every model named by the update overwrites the same-named model
wholesale while models not named keep their stored values. -/
theorem C3_update_merge (u : PartialEntity) (s : GameState)
    (efs ums : List (String × JValue))
    (hid : u.entityId ≠ "")
    (hex : assocGet s.entities u.entityId = some (.jobj efs))
    (hum : u.models = some ums)
    (hnd : nodupKeys ums = true) :
    ∃ mfs,
      (∃ E2, assocGet (updateEntity u s).entities u.entityId = some E2 ∧
        getField E2 "models" = some (.jobj mfs)) ∧
      (∀ ns, assocGet ums ns = none →
          assocGet mfs ns =
            assocGet (asObj (getField (.jobj efs) "models")) ns) ∧
      (∀ ns nsfs, assocGet ums ns = some (.jobj nsfs) →
          ∃ nsOut, assocGet mfs ns = some (.jobj nsOut) ∧
            (∀ mdl mv, nodupKeys nsfs = true →
                assocGet nsfs mdl = some mv →
                assocGet nsOut mdl = some mv) ∧
            (∀ mdl, assocGet nsfs mdl = none →
                assocGet nsOut mdl =
                  assocGet (asObj (assocGet
                    (asObj (getField (.jobj efs) "models")) ns)) mdl)) := by
  refine ⟨mergeModels (asObj (getField (.jobj efs) "models")) ums,
    ?_, ?_, ?_⟩
  · have hupd : updateEntity u s =
        { s with entities :=
            (assocSet s.entities u.entityId
              (setField (setField (.jobj efs) "entityId"
                  (.jstr u.entityId)) "models"
                (.jobj (mergeModels
                  (asObj (getField (.jobj efs) "models")) ums)))) } := by
      unfold updateEntity
      rw [if_neg hid, hex, hum]
    rw [hupd]
    refine ⟨_, assocGet_set_self _ _ _, ?_⟩
    simp only [setField, getField, assocGet_set_self]
  · intro ns hns
    exact mergeModels_get_absent ums _ ns hns
  · intro ns nsfs hns
    refine ⟨mergeObj (asObj (assocGet
      (asObj (getField (.jobj efs) "models")) ns)) nsfs, ?_, ?_, ?_⟩
    · rw [mergeModels_get_present ums _ ns (.jobj nsfs) hnd hns]
      rfl
    · intro mdl mv hndns hm
      exact foldl_assocSet_pairs_some nsfs _ mdl mv hndns hm
    · intro mdl hm
      exact foldl_assocSet_pairs_none nsfs _ mdl hm

theorem C3_update_merge_witness :
    sampleUpdate.entityId ≠ "" ∧
    assocGet sampleState2.entities sampleUpdate.entityId =
      some sampleEntity2 ∧
    (∃ mfs,
      (∃ E2, assocGet (updateEntity sampleUpdate sampleState2).entities
          sampleUpdate.entityId = some E2 ∧
        getField E2 "models" = some (.jobj mfs)) ∧
      (∀ ns, assocGet [("A", JValue.jobj [("M1",
            JValue.jobj [("x", JValue.jnum 9)])])] ns = none →
          assocGet mfs ns =
            assocGet (asObj (getField sampleEntity2 "models")) ns) ∧
      (∀ ns nsfs, assocGet [("A", JValue.jobj [("M1",
            JValue.jobj [("x", JValue.jnum 9)])])] ns =
            some (.jobj nsfs) →
          ∃ nsOut, assocGet mfs ns = some (.jobj nsOut) ∧
            (∀ mdl mv, nodupKeys nsfs = true →
                assocGet nsfs mdl = some mv →
                assocGet nsOut mdl = some mv) ∧
            (∀ mdl, assocGet nsfs mdl = none →
                assocGet nsOut mdl =
                  assocGet (asObj (assocGet
                    (asObj (getField sampleEntity2 "models")) ns))
                    mdl))) :=
  ⟨by decide, rfl,
    C3_update_merge sampleUpdate sampleState2
      [("entityId", .jstr "e1"),
       ("models", .jobj
         [("A", .jobj [("M1", .jobj [("x", .jnum 1)])]),
          ("B", .jobj [("M2", .jobj [("y", .jnum 2)])])])]
      [("A", .jobj [("M1", .jobj [("x", .jnum 9)])])]
      (by decide) rfl rfl rfl⟩

/-- C4: updateEntity for an entity id absent from the cache leaves the
whole state unchanged: no entity slot is created, nothing is merged,
and the call is a silent no-op. -/
theorem C4_update_absent_noop (u : PartialEntity) (s : GameState)
    (h : assocGet s.entities u.entityId = none) : updateEntity u s = s := by
  unfold updateEntity
  split
  · rfl
  · rw [h]

theorem C4_update_absent_noop_witness :
    assocGet sampleState.entities
      (PartialEntity.mk "ghost" (some [])).entityId = none ∧
    updateEntity (PartialEntity.mk "ghost" (some [])) sampleState =
      sampleState :=
  ⟨rfl, C4_update_absent_noop (PartialEntity.mk "ghost" (some []))
    sampleState rfl⟩

/-- C5: confirming a pending transaction leaves the entities record
identical, so getEntities returns the same list before and after; its
only effect is that the ledger entry for the transaction id is gone,
every other ledger entry being untouched. -/
theorem C5_confirm_frame (tid : String) (s : GameState)
    (_hp : (assocGet s.pendingTransactions tid).isSome = true) :
    (confirmTransaction tid s).entities = s.entities ∧
    getEntities none (confirmTransaction tid s) = getEntities none s ∧
    assocGet (confirmTransaction tid s).pendingTransactions tid = none ∧
    (∀ k, k ≠ tid →
      assocGet (confirmTransaction tid s).pendingTransactions k =
        assocGet s.pendingTransactions k) :=
  ⟨rfl, rfl, assocGet_remove_self _ _,
    fun k hk => assocGet_remove_other _ tid k hk⟩

theorem C5_confirm_frame_witness :
    (assocGet sampleStateTx.pendingTransactions "t1").isSome = true ∧
    ((confirmTransaction "t1" sampleStateTx).entities =
        sampleStateTx.entities ∧
      getEntities none (confirmTransaction "t1" sampleStateTx) =
        getEntities none sampleStateTx ∧
      assocGet (confirmTransaction "t1"
        sampleStateTx).pendingTransactions "t1" = none ∧
      (∀ k, k ≠ "t1" →
        assocGet (confirmTransaction "t1"
          sampleStateTx).pendingTransactions k =
          assocGet sampleStateTx.pendingTransactions k)) :=
  ⟨rfl, C5_confirm_frame "t1" sampleStateTx rfl⟩

/-- C6: immediately after applyOptimisticUpdate returns, reads reflect
the optimistic value: the edit that assigned v at a model field is
visible through getEntity, and the ledger holds a record for the
transaction id whose transactionId field is that id. -/
theorem C6_optimistic_visibility (s : GameState)
    (tid id ns mdl fld : String) (v : JValue)
    (hreach : reaches (.jobj s.entities)
      [id, "models", ns, mdl, fld] = true) :
    (∃ e, getEntity id (applyOptimisticUpdate tid
        (setFieldEdit id ns mdl fld v) s) = some e ∧
      navGet e ["models", ns, mdl, fld] = some v) ∧
    (∃ ps inv, assocGet (applyOptimisticUpdate tid
        (setFieldEdit id ns mdl fld v) s).pendingTransactions tid =
      some (.mk tid ps inv)) := by
  constructor
  · obtain ⟨fs2, hfs2⟩ := applyAt_obj_nonempty .replace v s.entities
      [id, "models", ns, mdl, fld] (by simp)
    have happ : applyEnt s.entities .replace
        [id, "models", ns, mdl, fld] v = fs2 := by
      unfold applyEnt
      rw [hfs2]
    have hnav := navGet_applyAt_replace [id, "models", ns, mdl, fld]
      (.jobj s.entities) v hreach
    rw [hfs2] at hnav
    obtain ⟨c, hc, hcnav⟩ :=
      navGet_obj_cons fs2 id ["models", ns, mdl, fld] v hnav
    refine ⟨c, ?_, hcnav⟩
    show assocGet (applyOptimisticUpdate tid
      (setFieldEdit id ns mdl fld v) s).entities id = some c
    rw [show (applyOptimisticUpdate tid
        (setFieldEdit id ns mdl fld v) s).entities =
      applyEnt s.entities .replace [id, "models", ns, mdl, fld] v
      from rfl]
    rw [happ]
    exact hc
  · exact ⟨_, _, assocGet_set_self _ _ _⟩

theorem C6_optimistic_visibility_witness :
    reaches (.jobj sampleState.entities)
      ["e1", "models", "dojo", "Moves", "remaining"] = true ∧
    ((∃ e, getEntity "e1" (applyOptimisticUpdate "t1"
        (setFieldEdit "e1" "dojo" "Moves" "remaining" (.jnum 100))
        sampleState) = some e ∧
      navGet e ["models", "dojo", "Moves", "remaining"] =
        some (.jnum 100)) ∧
    (∃ ps inv, assocGet (applyOptimisticUpdate "t1"
        (setFieldEdit "e1" "dojo" "Moves" "remaining" (.jnum 100))
        sampleState).pendingTransactions "t1" =
      some (.mk "t1" ps inv))) :=
  ⟨rfl, C6_optimistic_visibility sampleState "t1" "e1" "dojo" "Moves"
    "remaining" (.jnum 100) rfl⟩

/-- C7: reverting a transaction id with no ledger record leaves the
state unchanged; reverting a recorded transaction applies its inverse
patches to the current state and deletes the ledger entry from the
result. -/
theorem C7_revert_semantics (tid : String) (s : GameState) :
    (assocGet s.pendingTransactions tid = none →
      revertOptimisticUpdate tid s = s) ∧
    (∀ tx, assocGet s.pendingTransactions tid = some tx →
      revertOptimisticUpdate tid s =
        { entities := (applyPatchesState s tx.inversePatches).entities,
          pendingTransactions :=
            (assocRemove (applyPatchesState s
              tx.inversePatches).pendingTransactions tid) }) := by
  constructor
  · intro h
    unfold revertOptimisticUpdate
    rw [h]
  · intro tx h
    unfold revertOptimisticUpdate
    rw [h]

theorem C7_revert_semantics_witness :
    assocGet sampleState.pendingTransactions "t1" = none ∧
    revertOptimisticUpdate "t1" sampleState = sampleState ∧
    assocGet sampleStateTx.pendingTransactions "t1" = some sampleTx ∧
    revertOptimisticUpdate "t1" sampleStateTx =
      { entities := (applyPatchesState sampleStateTx
          sampleTx.inversePatches).entities,
        pendingTransactions :=
          (assocRemove (applyPatchesState sampleStateTx
            sampleTx.inversePatches).pendingTransactions "t1") } :=
  ⟨rfl, (C7_revert_semantics "t1" sampleState).1 rfl, rfl,
    (C7_revert_semantics "t1" sampleStateTx).2 sampleTx rfl⟩

/-- C8 counterexample: when the predicate already holds of the entity
at registration time, the initial synchronous notification delivered
by the store during subscription runs the listener before the timer
and unsubscribe bindings are initialized, so the promise rejects with
an error instead of resolving with the entity value. -/
theorem C8_wait_counterexample :
    samplePresent (assocGet sampleState.entities "e1") = true ∧
    waitForEntityChangeRun "e1" samplePresent 50 sampleState [] =
      .rejectedError :=
  ⟨rfl, rfl⟩

/-- C8 amended: provided the predicate does not hold at the initial
synchronous notification, the first later notification satisfying the
predicate resolves the wait with that entity value and deregisters the
listener, later events being ignored; and if the timer fires before
any satisfying notification, the wait rejects with the timeout error
carrying the configured duration and subsequent notifications are
ignored. -/
theorem C8_wait_behavior (entityId : String)
    (predicate : Option JValue → Bool) (timeout : Nat) (s0 : GameState)
    (hinit : predicate (assocGet s0.entities entityId) = false) :
    (∀ pre s post,
      (∀ ev ∈ pre, ∃ s2, ev = .notify s2 ∧
        predicate (assocGet s2.entities entityId) = false) →
      predicate (assocGet s.entities entityId) = true →
      waitForEntityChangeRun entityId predicate timeout s0
        (pre ++ .notify s :: post) =
        .resolved (assocGet s.entities entityId)) ∧
    (∀ pre post,
      (∀ ev ∈ pre, ∃ s2, ev = .notify s2 ∧
        predicate (assocGet s2.entities entityId) = false) →
      waitForEntityChangeRun entityId predicate timeout s0
        (pre ++ .timerFires :: post) = .rejectedTimeout timeout) := by
  constructor
  · intro pre s post hpre hs
    unfold waitForEntityChangeRun
    rw [if_neg (by simp [hinit])]
    rw [List.foldl_append]
    rw [waitRun_inert entityId predicate timeout pre hpre]
    simp only [List.foldl_cons, waitStep, hs, if_pos]
    exact waitRun_absorb entityId predicate timeout post _
      (fun h => WaitOutcome.noConfusion h)
  · intro pre post hpre
    unfold waitForEntityChangeRun
    rw [if_neg (by simp [hinit])]
    rw [List.foldl_append]
    rw [waitRun_inert entityId predicate timeout pre hpre]
    simp only [List.foldl_cons, waitStep]
    exact waitRun_absorb entityId predicate timeout post _
      (fun h => WaitOutcome.noConfusion h)

theorem C8_wait_behavior_witness :
    samplePred (assocGet sampleState.entities "e1") = false ∧
    waitForEntityChangeRun "e1" samplePred 50 sampleState
      ([] ++ .notify (bumpEdit sampleState) :: []) =
      .resolved (assocGet (bumpEdit sampleState).entities "e1") ∧
    waitForEntityChangeRun "e1" samplePred 50 sampleState
      ([] ++ .timerFires :: []) = .rejectedTimeout 50 :=
  ⟨rfl,
    (C8_wait_behavior "e1" samplePred 50 sampleState rfl).1 []
      (bumpEdit sampleState) [] (fun ev h => by simp at h) rfl,
    (C8_wait_behavior "e1" samplePred 50 sampleState rfl).2 [] []
      (fun ev h => by simp at h)⟩

/-- C9: setEntities replaces the slot of every referenced entity id
wholesale with the incoming entity value, the last occurrence winning
for a repeated id, leaves unreferenced ids untouched, and never
touches the ledger. -/
theorem C9_setEntities (es : List ParsedEntity) (s : GameState) :
    (∀ id, (∀ e ∈ es, e.entityId ≠ id) →
      assocGet (setEntities es s).entities id =
        assocGet s.entities id) ∧
    (∀ l1 (e : ParsedEntity) l2, es = l1 ++ e :: l2 →
      (∀ e2 ∈ l2, e2.entityId ≠ e.entityId) →
      assocGet (setEntities es s).entities e.entityId = some e.toJ) ∧
    (setEntities es s).pendingTransactions = s.pendingTransactions := by
  refine ⟨?_, ?_, rfl⟩
  · intro id h
    exact setEnts_foldl_other es s.entities id h
  · intro l1 e l2 hes h2
    subst hes
    show assocGet ((l1 ++ e :: l2).foldl
      (fun acc e => assocSet acc e.entityId e.toJ) s.entities)
      e.entityId = some e.toJ
    rw [List.foldl_append]
    simp only [List.foldl_cons]
    rw [setEnts_foldl_other l2 _ e.entityId h2]
    exact assocGet_set_self _ _ _

theorem C9_setEntities_witness :
    assocGet (setEntities [sampleParsed] sampleState).entities "e1" =
      assocGet sampleState.entities "e1" ∧
    assocGet (setEntities [sampleParsed] sampleState).entities "e2" =
      some sampleParsed.toJ ∧
    (setEntities [sampleParsed] sampleState).pendingTransactions =
      sampleState.pendingTransactions :=
  ⟨(C9_setEntities [sampleParsed] sampleState).1 "e1"
      (fun e h => by simp at h; rw [h]; decide),
    (C9_setEntities [sampleParsed] sampleState).2.1 [] sampleParsed []
      rfl (fun e2 h => by simp at h),
    (C9_setEntities [sampleParsed] sampleState).2.2⟩

/-- C10: confirming a transaction id that has no ledger entry leaves
the whole state unchanged and runs without error. -/
theorem C10_confirm_unknown_noop (tid : String) (s : GameState)
    (h : assocGet s.pendingTransactions tid = none) :
    confirmTransaction tid s = s := by
  show { s with pendingTransactions :=
    (assocRemove s.pendingTransactions tid) } = s
  rw [assocRemove_of_not_mem s.pendingTransactions tid h]

theorem C10_confirm_unknown_noop_witness :
    assocGet sampleStateTx.pendingTransactions "t9" = none ∧
    confirmTransaction "t9" sampleStateTx = sampleStateTx :=
  ⟨rfl, C10_confirm_unknown_noop "t9" sampleStateTx rfl⟩
